import Mathlib

/-!
Verification of the lexer (`src/Lexer.cpp`) and the prototype AST node
(`src/AST.h`) of the Kaleidoscope front end.

The lexer is embedded shallowly: `getchar()` reads from an explicit list of
pending characters; the function-local `static int LastChar` of
`Lexer::gettok` is an `Option Char` (`none` models `EOF`); the member fields
`identifierStr_` and `numVal_` are carried in the state record.  The C
character classification functions (`isspace`, `isalpha`, `isdigit`,
`isalnum`) are modelled on ASCII code points, and `strtod` is modelled as an
exact rational parse of the decimal strings the number branch can produce.
-/

namespace HackLLVM

set_option maxRecDepth 8192

/-- C `isspace` on ASCII: space (32) and the control characters 9..13. -/
def isspace (c : Char) : Bool := c.toNat = 32 || (9 ≤ c.toNat && c.toNat ≤ 13)

/-- C `isalpha` on ASCII: `A`..`Z` (65..90) and `a`..`z` (97..122). -/
def isalpha (c : Char) : Bool :=
  (65 ≤ c.toNat && c.toNat ≤ 90) || (97 ≤ c.toNat && c.toNat ≤ 122)

/-- C `isdigit` on ASCII: `0`..`9` (48..57). -/
def isdigit (c : Char) : Bool := 48 ≤ c.toNat && c.toNat ≤ 57

/-- C `isalnum` on ASCII. -/
def isalnum (c : Char) : Bool := isalpha c || isdigit c

/-- The character class `[0-9.]` of the number branch of `gettok`. -/
def isnumchar (c : Char) : Bool := isdigit c || c = '.'

/-- The token kinds `Lexer::gettok` can return: the named enumerators of the
token enumeration, plus `tok_char n` for the "return the raw character as its
ascii value" case, carrying the character's ordinal.  (`tok_extern_kw`
models the enumerator for the `extern` keyword.) -/
inductive Tok where
  | tok_eof
  | tok_def
  | tok_extern_kw
  | tok_identifier
  | tok_number
  | tok_if
  | tok_then
  | tok_else
  | tok_for
  | tok_in
  | tok_unary
  | tok_binary
  | tok_var
  | tok_char (ordinal : Nat)
  deriving DecidableEq, Repr

/-- The scanning state of `Lexer::gettok`: the characters `getchar()` has not
yet delivered, the function-local static `LastChar` (`none` = `EOF`), and the
member fields `identifierStr_` and `numVal_` of the `Lexer` object. -/
structure LexState where
  input : List Char
  lastChar : Option Char
  identifierStr_ : String
  numVal_ : ℚ
  deriving DecidableEq, Repr

/-- Digit accumulation of the integer part of C `strtod`: consume leading
digits into an accumulator, return the value and the unconsumed suffix. -/
def parseIntPart : List Char → Nat → Nat × List Char
  | [], acc => (acc, [])
  | c :: rest, acc =>
    if isdigit c then parseIntPart rest (10 * acc + (c.toNat - 48))
    else (acc, c :: rest)

/-- Fractional-part value of C `strtod`: the value of the longest digit
prefix read after the decimal point. -/
def fracVal : List Char → ℚ
  | [] => 0
  | c :: rest =>
    if isdigit c then (((c.toNat - 48 : Nat) : ℚ) + fracVal rest) / 10
    else 0

/-- Model of C `strtod` on the strings the number branch of `gettok` builds
(matching `[0-9.]+`): parse leading digits, then an optional `.` followed by
digits, ignore the rest (so `"1.2.3"` parses as `1.2`), and yield `0` when no
digits convert.  The value is exact (a rational), abstracting from IEEE-754
rounding. -/
def strtod (s : String) : ℚ :=
  match parseIntPart s.data 0 with
  | (ip, '.' :: rest2) => (ip : ℚ) + fracVal rest2
  | (ip, _) => (ip : ℚ)

/-- The `while (isspace(LastChar)) LastChar = advance();` loop at the top of
`Lexer::gettok`, returning the new `LastChar` and the unread input. -/
def skipWS : Option Char → List Char → Option Char × List Char
  | none, input => (none, input)
  | some c, input =>
    if isspace c then
      match input with
      | [] => (none, [])
      | d :: rest => skipWS (some d) rest
    else (some c, input)

/-- The identifier loop of `Lexer::gettok`:
`while (isalnum((LastChar = getchar()))) identifierStr_ += LastChar;`.
Returns the accumulated buffer, the new `LastChar`, and the unread input. -/
def readIdentLoop (acc : String) : List Char → String × Option Char × List Char
  | [] => (acc, none, [])
  | d :: rest =>
    if isalnum d then readIdentLoop (acc.push d) rest
    else (acc, some d, rest)

/-- The number do-while loop of `Lexer::gettok`:
`do { NumStr += LastChar; LastChar = getchar(); } while (isdigit(LastChar) || LastChar == '.');`
entered with the current `LastChar` in `c`. -/
def readNumLoop (acc : String) (c : Char) : List Char → String × Option Char × List Char
  | [] => (acc.push c, none, [])
  | d :: rest =>
    if isnumchar d then readNumLoop (acc.push c) d rest
    else (acc.push c, some d, rest)

/-- The comment do-while loop of `Lexer::gettok`:
`do { LastChar = getchar(); } while (LastChar != EOF && LastChar != '\n' && LastChar != '\r');`. -/
def commentLoop : List Char → Option Char × List Char
  | [] => (none, [])
  | d :: rest =>
    if d = '\n' ∨ d = '\r' then (some d, rest)
    else commentLoop rest

theorem skipWS_length_le (lc : Option Char) (input : List Char) :
    (skipWS lc input).2.length ≤ input.length := by
  induction input generalizing lc with
  | nil =>
    cases lc with
    | none => simp [skipWS]
    | some c => simp only [skipWS]; split <;> simp
  | cons d rest ih =>
    cases lc with
    | none => simp [skipWS]
    | some c =>
      simp only [skipWS]
      split
      · exact Nat.le_trans (ih (some d)) (Nat.le_succ _)
      · simp

theorem commentLoop_some_lt (input : List Char) (c : Char) (rest : List Char)
    (h : commentLoop input = (some c, rest)) : rest.length < input.length := by
  induction input generalizing c rest with
  | nil => exact absurd (congrArg Prod.fst h) (by simp [commentLoop])
  | cons d tl ih =>
    simp only [commentLoop] at h
    split at h
    · cases h; simp
    · exact Nat.lt_trans (ih c rest h) (by simp)

/-- The keyword dispatch chain at the end of the identifier branch of
`Lexer::gettok`, comparing `identifierStr_` against the ten keywords in
source order and falling through to `tok_identifier`. -/
def keywordTok (s : String) : Tok :=
  if s = "def" then .tok_def
  else if s = "extern" then .tok_extern_kw
  else if s = "if" then .tok_if
  else if s = "then" then .tok_then
  else if s = "else" then .tok_else
  else if s = "for" then .tok_for
  else if s = "in" then .tok_in
  else if s = "unary" then .tok_unary
  else if s = "binary" then .tok_binary
  else if s = "var" then .tok_var
  else .tok_identifier

/-- Embedding of `Lexer::gettok`, returning the token kind together with the state after
the call.  Branch order follows the source: skip whitespace; identifier /
keyword; number; `#` comment (discard through end of line, then re-invoke
`gettok` unless `EOF` was hit); `EOF`; raw character. -/
def gettok (st : LexState) : Tok × LexState :=
  match h1 : skipWS st.lastChar st.input with
  | (none, inp) => (.tok_eof, ⟨inp, none, st.identifierStr_, st.numVal_⟩)
  | (some c, inp) =>
    if isalpha c then
      match readIdentLoop (String.singleton c) inp with
      | (id, lc', inp') => (keywordTok id, ⟨inp', lc', id, st.numVal_⟩)
    else if isnumchar c then
      match readNumLoop "" c inp with
      | (num, lc', inp') => (.tok_number, ⟨inp', lc', st.identifierStr_, strtod num⟩)
    else if c = '#' then
      match h2 : commentLoop inp with
      | (some c', inp') => gettok ⟨inp', some c', st.identifierStr_, st.numVal_⟩
      | (none, inp') => (.tok_eof, ⟨inp', none, st.identifierStr_, st.numVal_⟩)
    else
      match inp with
      | [] => (.tok_char c.toNat, ⟨[], none, st.identifierStr_, st.numVal_⟩)
      | d :: rest => (.tok_char c.toNat, ⟨rest, some d, st.identifierStr_, st.numVal_⟩)
termination_by st.input.length
decreasing_by
  have ha := skipWS_length_le st.lastChar st.input
  rw [h1] at ha
  have hb := commentLoop_some_lt inp c' inp' h2
  simp only at ha hb ⊢
  omega

/-- Embedding of `Lexer::getNum`: returns the member `numVal_`. -/
def getNum (st : LexState) : ℚ := st.numVal_

/-- Embedding of `Lexer::getId`: returns the member `identifierStr_`. -/
def getId (st : LexState) : String := st.identifierStr_

/-- A freshly started lexer on input `s`: the static `LastChar` holds its
initializer `' '`, no character has been read, and the payload members hold
the given initial values. -/
def initState (s : String) (i : String) (n : ℚ) : LexState := ⟨s.data, some ' ', i, n⟩

theorem isalpha_not_space (c : Char) (h : isalpha c = true) : isspace c = false := by
  rw [← Bool.not_eq_true]
  intro hs
  simp only [isalpha, Bool.or_eq_true, Bool.and_eq_true, decide_eq_true_eq] at h
  simp only [isspace, Bool.or_eq_true, Bool.and_eq_true, decide_eq_true_eq] at hs
  omega

theorem isnumchar_not_space (c : Char) (h : isnumchar c = true) : isspace c = false := by
  rw [← Bool.not_eq_true]
  intro hs
  simp only [isnumchar, isdigit, Bool.or_eq_true, Bool.and_eq_true, decide_eq_true_eq] at h
  simp only [isspace, Bool.or_eq_true, Bool.and_eq_true, decide_eq_true_eq] at hs
  rcases h with h | h
  · omega
  · subst h; revert hs; decide

theorem isnumchar_not_alpha (c : Char) (h : isnumchar c = true) : isalpha c = false := by
  rw [← Bool.not_eq_true]
  intro ha
  simp only [isnumchar, isdigit, Bool.or_eq_true, Bool.and_eq_true, decide_eq_true_eq] at h
  simp only [isalpha, Bool.or_eq_true, Bool.and_eq_true, decide_eq_true_eq] at ha
  rcases h with h | h
  · omega
  · subst h; revert ha; decide

theorem skipWS_space_cons (c : Char) (l : List Char) (hc : isspace c = false) :
    skipWS (some ' ') (c :: l) = (some c, l) := by
  have hs : isspace ' ' = true := by decide
  rw [skipWS.eq_def]
  simp only [hs, if_true]
  rw [skipWS.eq_def]
  simp [hc]

theorem readIdentLoop_spec (acc : String) (w t : List Char)
    (hw : ∀ d ∈ w, isalnum d = true)
    (ht : ∀ d, t.head? = some d → isalnum d = false) :
    readIdentLoop acc (w ++ t) = (⟨acc.data ++ w⟩, t.head?, t.tail) := by
  induction w generalizing acc with
  | nil =>
    cases t with
    | nil => simp [readIdentLoop]
    | cons d rest =>
      have hd : isalnum d = false := ht d rfl
      simp [readIdentLoop, hd]
  | cons a w' ih =>
    have ha : isalnum a = true := hw a (by simp)
    have hw' : ∀ d ∈ w', isalnum d = true := fun d hd => hw d (by simp [hd])
    simp only [List.cons_append, readIdentLoop, ha, if_true]
    rw [show (w'.append t) = w' ++ t from rfl, ih (acc.push a) hw']
    simp [String.push]

theorem readNumLoop_spec (acc : String) (c : Char) (w t : List Char)
    (hw : ∀ d ∈ w, isnumchar d = true)
    (ht : ∀ d, t.head? = some d → isnumchar d = false) :
    readNumLoop acc c (w ++ t) = (⟨acc.data ++ c :: w⟩, t.head?, t.tail) := by
  induction w generalizing acc c with
  | nil =>
    cases t with
    | nil => simp [readNumLoop, String.push]
    | cons d rest =>
      have hd : isnumchar d = false := ht d rfl
      simp [readNumLoop, hd, String.push]
  | cons a w' ih =>
    have ha : isnumchar a = true := hw a (by simp)
    have hw' : ∀ d ∈ w', isnumchar d = true := fun d hd => hw d (by simp [hd])
    simp only [List.cons_append, readNumLoop, ha, if_true]
    rw [show (w'.append t) = w' ++ t from rfl, ih (acc.push c) a hw']
    simp [String.push]

/-- Evaluation of the identifier/keyword branch of `gettok`: starting from a
fresh `LastChar = ' '`, an input beginning with an alphabetic character `c`,
continuing with alphanumeric characters `w`, and followed by a tail `t` whose
head (if any) is not alphanumeric, produces `keywordTok ⟨c :: w⟩` and stores
the matched word in `identifierStr_`. -/
theorem gettok_ident_branch (c : Char) (hc : isalpha c = true) (w t : List Char)
    (hw : ∀ d ∈ w, isalnum d = true)
    (ht : ∀ d, t.head? = some d → isalnum d = false) (i : String) (n : ℚ) :
    gettok ⟨c :: (w ++ t), some ' ', i, n⟩ =
      (keywordTok ⟨c :: w⟩, ⟨t.tail, t.head?, ⟨c :: w⟩, n⟩) := by
  have h1 : skipWS (some ' ') (c :: (w ++ t)) = (some c, w ++ t) :=
    skipWS_space_cons c _ (isalpha_not_space c hc)
  have h2 : readIdentLoop (String.singleton c) (w ++ t) = (⟨c :: w⟩, t.head?, t.tail) := by
    have h := readIdentLoop_spec (String.singleton c) w t hw ht
    simpa [String.singleton] using h
  rw [gettok.eq_def]
  split
  · rename_i inp heq
    rw [h1] at heq
    exact absurd (congrArg Prod.fst heq) (by simp)
  · rename_i c1 inp heq
    rw [h1] at heq
    obtain ⟨hc1, hinp⟩ := Prod.mk.injEq .. ▸ heq
    injection hc1 with hc1
    subst hc1; subst hinp
    simp only [hc, if_true, h2]

/-- Evaluation of the number branch of `gettok`: a digit-or-dot character `c`
followed by more such characters `w` and a tail whose head is outside
`[0-9.]` produces `tok_number` and stores `strtod` of the matched text in
`numVal_`, leaving `identifierStr_` alone. -/
theorem gettok_num_branch (c : Char) (hc : isnumchar c = true) (w t : List Char)
    (hw : ∀ d ∈ w, isnumchar d = true)
    (ht : ∀ d, t.head? = some d → isnumchar d = false) (i : String) (n : ℚ) :
    gettok ⟨c :: (w ++ t), some ' ', i, n⟩ =
      (.tok_number, ⟨t.tail, t.head?, i, strtod ⟨c :: w⟩⟩) := by
  have h1 : skipWS (some ' ') (c :: (w ++ t)) = (some c, w ++ t) :=
    skipWS_space_cons c _ (isnumchar_not_space c hc)
  have h2 : readNumLoop "" c (w ++ t) = (⟨c :: w⟩, t.head?, t.tail) := by
    simpa using readNumLoop_spec "" c w t hw ht
  have hna : isalpha c = false := isnumchar_not_alpha c hc
  rw [gettok.eq_def]
  split
  · rename_i inp heq
    rw [h1] at heq
    exact absurd (congrArg Prod.fst heq) (by simp)
  · rename_i c1 inp heq
    rw [h1] at heq
    obtain ⟨hc1, hinp⟩ := Prod.mk.injEq .. ▸ heq
    injection hc1 with hc1
    subst hc1; subst hinp
    simp [hna, hc, h2]

/-- Evaluation of the raw-character branch of `gettok`: when the pending
`LastChar` is a character that is neither whitespace, nor alphabetic, nor in
`[0-9.]`, nor `#`, `gettok` returns the character ordinal as the token kind
and advances past it. -/
theorem gettok_rawchar (c : Char) (hs : isspace c = false) (ha : isalpha c = false)
    (hn : isnumchar c = false) (hh : ¬ (c = '#')) (t : List Char) (i : String) (n : ℚ) :
    gettok ⟨t, some c, i, n⟩ = (.tok_char c.toNat, ⟨t.tail, t.head?, i, n⟩) := by
  have h1 : skipWS (some c) t = (some c, t) := by
    rw [skipWS.eq_def]; simp [hs]
  rw [gettok.eq_def]
  split
  · rename_i inp heq
    rw [h1] at heq
    exact absurd (congrArg Prod.fst heq) (by simp)
  · rename_i c1 inp heq
    rw [h1] at heq
    obtain ⟨hc1, hinp⟩ := Prod.mk.injEq .. ▸ heq
    injection hc1 with hc1
    subst hc1; subst hinp
    cases t with
    | nil => simp [ha, hn, hh]
    | cons d rest => simp [ha, hn, hh]

/-- When the pending `LastChar` is `EOF`, `gettok` returns `tok_eof` and
leaves the whole state unchanged: the lexer does not consume further. -/
theorem gettok_eof_pending (inp : List Char) (i : String) (n : ℚ) :
    gettok ⟨inp, none, i, n⟩ = (.tok_eof, ⟨inp, none, i, n⟩) := by
  rw [gettok.eq_def]
  split
  · rename_i inp' heq
    simp only [skipWS] at heq
    obtain ⟨-, hinp⟩ := Prod.mk.injEq .. ▸ heq
    rw [hinp]
  · rename_i c1 inp' heq
    simp only [skipWS] at heq
    exact absurd (congrArg Prod.fst heq) (by simp)

/-- The comment branch of `gettok` when the comment ends at a newline:
discard through end of line and re-invoke `gettok` on the remaining input. -/
theorem gettok_comment_newline (t inp' : List Char) (c' : Char)
    (h : commentLoop t = (some c', inp')) (i : String) (n : ℚ) :
    gettok ⟨t, some '#', i, n⟩ = gettok ⟨inp', some c', i, n⟩ := by
  have h1 : skipWS (some '#') t = (some '#', t) := by
    rw [skipWS.eq_def]; simp [isspace]
  rw [gettok.eq_def]
  split
  · rename_i inp heq
    rw [h1] at heq
    exact absurd (congrArg Prod.fst heq) (by simp)
  · rename_i c1 inp heq
    rw [h1] at heq
    obtain ⟨hc1, hinp⟩ := Prod.mk.injEq .. ▸ heq
    injection hc1 with hc1
    subst hc1; subst hinp
    have ha : isalpha '#' = false := by decide
    have hn : isnumchar '#' = false := by decide
    simp only [ha, Bool.false_eq_true, if_false, hn, if_true]
    split
    · rename_i c2 inp2 heq2
      rw [h] at heq2
      obtain ⟨hc2, hinp2⟩ := Prod.mk.injEq .. ▸ heq2
      injection hc2 with hc2
      subst hc2; subst hinp2
      rfl
    · rename_i inp2 heq2
      rw [h] at heq2
      exact absurd (congrArg Prod.fst heq2) (by simp)

/-- The comment branch of `gettok` when end-of-input is hit while discarding
the comment: no token is produced for the comment and `tok_eof` is returned. -/
theorem gettok_comment_eof (t inp' : List Char)
    (h : commentLoop t = (none, inp')) (i : String) (n : ℚ) :
    gettok ⟨t, some '#', i, n⟩ = (.tok_eof, ⟨inp', none, i, n⟩) := by
  have h1 : skipWS (some '#') t = (some '#', t) := by
    rw [skipWS.eq_def]; simp [isspace]
  rw [gettok.eq_def]
  split
  · rename_i inp heq
    rw [h1] at heq
    exact absurd (congrArg Prod.fst heq) (by simp)
  · rename_i c1 inp heq
    rw [h1] at heq
    obtain ⟨hc1, hinp⟩ := Prod.mk.injEq .. ▸ heq
    injection hc1 with hc1
    subst hc1; subst hinp
    have ha : isalpha '#' = false := by decide
    have hn : isnumchar '#' = false := by decide
    simp only [ha, Bool.false_eq_true, if_false, hn, if_true]
    split
    · rename_i c2 inp2 heq2
      rw [h] at heq2
      exact absurd (congrArg Prod.fst heq2) (by simp)
    · rename_i inp2 heq2
      rw [h] at heq2
      obtain ⟨-, hinp2⟩ := Prod.mk.injEq .. ▸ heq2
      rw [hinp2]

theorem keywordTok_ne_number (s : String) : ¬ keywordTok s = Tok.tok_number := by
  unfold keywordTok
  split_ifs <;> simp

theorem keywordTok_ne_eof (s : String) : ¬ keywordTok s = Tok.tok_eof := by
  unfold keywordTok
  split_ifs <;> simp

/-- Evaluation of `gettok` when the whitespace loop runs out of input: the `EOF` case. -/
theorem gettok_of_skip_none (inp inp₀ : List Char) (lc : Option Char) (i : String) (n : ℚ)
    (h : skipWS lc inp = (none, inp₀)) :
    gettok ⟨inp, lc, i, n⟩ = (.tok_eof, ⟨inp₀, none, i, n⟩) := by
  rw [gettok.eq_def]
  split
  · rename_i inp' heq
    rw [h] at heq
    obtain ⟨-, hinp⟩ := Prod.mk.injEq .. ▸ heq
    rw [hinp]
  · rename_i c1 inp' heq
    rw [h] at heq
    exact absurd (congrArg Prod.fst heq) (by simp)

/-- Evaluation of `gettok` when the first non-whitespace character is alphabetic: the
identifier/keyword case, in terms of `readIdentLoop`. -/
theorem gettok_of_skip_alpha (inp inp₀ : List Char) (lc : Option Char) (c : Char)
    (i : String) (n : ℚ) (h : skipWS lc inp = (some c, inp₀)) (hc : isalpha c = true) :
    gettok ⟨inp, lc, i, n⟩ =
      (keywordTok (readIdentLoop (String.singleton c) inp₀).1,
        ⟨(readIdentLoop (String.singleton c) inp₀).2.2,
         (readIdentLoop (String.singleton c) inp₀).2.1,
         (readIdentLoop (String.singleton c) inp₀).1, n⟩) := by
  rw [gettok.eq_def]
  split
  · rename_i inp' heq
    rw [h] at heq
    exact absurd (congrArg Prod.fst heq) (by simp)
  · rename_i c1 inp' heq
    rw [h] at heq
    obtain ⟨hc1, hinp⟩ := Prod.mk.injEq .. ▸ heq
    injection hc1 with hc1
    subst hc1; subst hinp
    simp [hc]

/-- Evaluation of `gettok` when the first non-whitespace character is in `[0-9.]`: the
number case, in terms of `readNumLoop` and `strtod`. -/
theorem gettok_of_skip_num (inp inp₀ : List Char) (lc : Option Char) (c : Char)
    (i : String) (n : ℚ) (h : skipWS lc inp = (some c, inp₀)) (hc : isnumchar c = true) :
    gettok ⟨inp, lc, i, n⟩ =
      (.tok_number,
        ⟨(readNumLoop "" c inp₀).2.2, (readNumLoop "" c inp₀).2.1, i,
         strtod (readNumLoop "" c inp₀).1⟩) := by
  have ha : isalpha c = false := isnumchar_not_alpha c hc
  rw [gettok.eq_def]
  split
  · rename_i inp' heq
    rw [h] at heq
    exact absurd (congrArg Prod.fst heq) (by simp)
  · rename_i c1 inp' heq
    rw [h] at heq
    obtain ⟨hc1, hinp⟩ := Prod.mk.injEq .. ▸ heq
    injection hc1 with hc1
    subst hc1; subst hinp
    simp [ha, hc]

/-- Evaluation of `gettok` when the first non-whitespace character is `#` and the comment
ends at a newline: `gettok` re-invokes itself past the comment. -/
theorem gettok_of_skip_comment_some (inp inp₀ inp' : List Char) (lc : Option Char)
    (c' : Char) (i : String) (n : ℚ) (h : skipWS lc inp = (some '#', inp₀))
    (h2 : commentLoop inp₀ = (some c', inp')) :
    gettok ⟨inp, lc, i, n⟩ = gettok ⟨inp', some c', i, n⟩ := by
  rw [gettok.eq_def]
  split
  · rename_i inpa heq
    rw [h] at heq
    exact absurd (congrArg Prod.fst heq) (by simp)
  · rename_i c1 inpa heq
    rw [h] at heq
    obtain ⟨hc1, hinp⟩ := Prod.mk.injEq .. ▸ heq
    injection hc1 with hc1
    subst hc1; subst hinp
    have ha : isalpha '#' = false := by decide
    have hn : isnumchar '#' = false := by decide
    simp only [ha, Bool.false_eq_true, if_false, hn, if_true]
    split
    · rename_i c2 inp2 heq2
      rw [h2] at heq2
      obtain ⟨hc2, hinp2⟩ := Prod.mk.injEq .. ▸ heq2
      injection hc2 with hc2
      subst hc2; subst hinp2
      rfl
    · rename_i inp2 heq2
      rw [h2] at heq2
      exact absurd (congrArg Prod.fst heq2) (by simp)

/-- Evaluation of `gettok` when the first non-whitespace character is `#` and end-of-input
is hit while discarding the comment: fall through to the `EOF` case. -/
theorem gettok_of_skip_comment_none (inp inp₀ inp' : List Char) (lc : Option Char)
    (i : String) (n : ℚ) (h : skipWS lc inp = (some '#', inp₀))
    (h2 : commentLoop inp₀ = (none, inp')) :
    gettok ⟨inp, lc, i, n⟩ = (.tok_eof, ⟨inp', none, i, n⟩) := by
  rw [gettok.eq_def]
  split
  · rename_i inpa heq
    rw [h] at heq
    exact absurd (congrArg Prod.fst heq) (by simp)
  · rename_i c1 inpa heq
    rw [h] at heq
    obtain ⟨hc1, hinp⟩ := Prod.mk.injEq .. ▸ heq
    injection hc1 with hc1
    subst hc1; subst hinp
    have ha : isalpha '#' = false := by decide
    have hn : isnumchar '#' = false := by decide
    simp only [ha, Bool.false_eq_true, if_false, hn, if_true]
    split
    · rename_i c2 inp2 heq2
      rw [h2] at heq2
      exact absurd (congrArg Prod.fst heq2) (by simp)
    · rename_i inp2 heq2
      rw [h2] at heq2
      obtain ⟨-, hinp2⟩ := Prod.mk.injEq .. ▸ heq2
      rw [hinp2]

/-- Evaluation of `gettok` when the first non-whitespace character is unclassified: the
raw-character case. -/
theorem gettok_of_skip_raw (inp inp₀ : List Char) (lc : Option Char) (c : Char)
    (i : String) (n : ℚ) (h : skipWS lc inp = (some c, inp₀))
    (ha : isalpha c = false) (hn : isnumchar c = false) (hh : ¬ (c = '#')) :
    gettok ⟨inp, lc, i, n⟩ = (.tok_char c.toNat, ⟨inp₀.tail, inp₀.head?, i, n⟩) := by
  rw [gettok.eq_def]
  split
  · rename_i inp' heq
    rw [h] at heq
    exact absurd (congrArg Prod.fst heq) (by simp)
  · rename_i c1 inp' heq
    rw [h] at heq
    obtain ⟨hc1, hinp⟩ := Prod.mk.injEq .. ▸ heq
    injection hc1 with hc1
    subst hc1; subst hinp
    cases inp₀ with
    | nil => simp [ha, hn, hh]
    | cons d rest => simp [ha, hn, hh]

/-- Payload frame property of `gettok`, by strong induction on the unread
input: the token kind and the scanning position (`input`, `lastChar`) of the
result never depend on the incoming `identifierStr_`/`numVal_` members, and
when the call returns `tok_number` (resp. `tok_identifier`) the resulting
`numVal_` (resp. `identifierStr_`) is freshly written, hence also independent
of the pre-call payload. -/
theorem gettok_payload_indep_aux :
    ∀ (N : Nat) (inp : List Char), inp.length ≤ N →
      ∀ (lc : Option Char) (i₁ i₂ : String) (n₁ n₂ : ℚ),
      (gettok ⟨inp, lc, i₁, n₁⟩).1 = (gettok ⟨inp, lc, i₂, n₂⟩).1 ∧
      (gettok ⟨inp, lc, i₁, n₁⟩).2.input = (gettok ⟨inp, lc, i₂, n₂⟩).2.input ∧
      (gettok ⟨inp, lc, i₁, n₁⟩).2.lastChar = (gettok ⟨inp, lc, i₂, n₂⟩).2.lastChar ∧
      ((gettok ⟨inp, lc, i₁, n₁⟩).1 = .tok_number →
        (gettok ⟨inp, lc, i₁, n₁⟩).2.numVal_ = (gettok ⟨inp, lc, i₂, n₂⟩).2.numVal_) ∧
      ((gettok ⟨inp, lc, i₁, n₁⟩).1 = .tok_identifier →
        (gettok ⟨inp, lc, i₁, n₁⟩).2.identifierStr_ =
          (gettok ⟨inp, lc, i₂, n₂⟩).2.identifierStr_) := by
  intro N
  induction N using Nat.strong_induction_on with
  | _ N ih =>
    intro inp hlen lc i₁ i₂ n₁ n₂
    rcases hsk : skipWS lc inp with ⟨olc, inp₀⟩
    have hlen₀ : inp₀.length ≤ inp.length := by
      have h := skipWS_length_le lc inp
      rw [hsk] at h
      exact h
    cases olc with
    | none =>
      rw [gettok_of_skip_none inp inp₀ lc i₁ n₁ hsk,
          gettok_of_skip_none inp inp₀ lc i₂ n₂ hsk]
      simp
    | some c =>
      cases hca : isalpha c with
      | true =>
        rw [gettok_of_skip_alpha inp inp₀ lc c i₁ n₁ hsk hca,
            gettok_of_skip_alpha inp inp₀ lc c i₂ n₂ hsk hca]
        exact ⟨rfl, rfl, rfl, fun h => absurd h (keywordTok_ne_number _), fun _ => rfl⟩
      | false =>
        cases hcn : isnumchar c with
        | true =>
          rw [gettok_of_skip_num inp inp₀ lc c i₁ n₁ hsk hcn,
              gettok_of_skip_num inp inp₀ lc c i₂ n₂ hsk hcn]
          simp
        | false =>
          by_cases hch : c = '#'
          · subst hch
            rcases hcm : commentLoop inp₀ with ⟨oc', inp'⟩
            cases oc' with
            | some c' =>
              have hlt : inp'.length < inp₀.length := commentLoop_some_lt inp₀ c' inp' hcm
              rw [gettok_of_skip_comment_some inp inp₀ inp' lc c' i₁ n₁ hsk hcm,
                  gettok_of_skip_comment_some inp inp₀ inp' lc c' i₂ n₂ hsk hcm]
              exact ih inp'.length (by omega) inp' (le_refl _) (some c') i₁ i₂ n₁ n₂
            | none =>
              rw [gettok_of_skip_comment_none inp inp₀ inp' lc i₁ n₁ hsk hcm,
                  gettok_of_skip_comment_none inp inp₀ inp' lc i₂ n₂ hsk hcm]
              simp
          · rw [gettok_of_skip_raw inp inp₀ lc c i₁ n₁ hsk hca hcn hch,
                gettok_of_skip_raw inp inp₀ lc c i₂ n₂ hsk hca hcn hch]
            simp

/-- Every `tok_eof` result of `gettok` leaves the static `LastChar` holding
`EOF`, by strong induction on the unread input. -/
theorem gettok_eof_lastChar_aux :
    ∀ (N : Nat) (inp : List Char), inp.length ≤ N →
      ∀ (lc : Option Char) (i : String) (n : ℚ) (st' : LexState),
      gettok ⟨inp, lc, i, n⟩ = (.tok_eof, st') → st'.lastChar = none := by
  intro N
  induction N using Nat.strong_induction_on with
  | _ N ih =>
    intro inp hlen lc i n st' hg
    rcases hsk : skipWS lc inp with ⟨olc, inp₀⟩
    have hlen₀ : inp₀.length ≤ inp.length := by
      have h := skipWS_length_le lc inp
      rw [hsk] at h
      exact h
    cases olc with
    | none =>
      rw [gettok_of_skip_none inp inp₀ lc i n hsk] at hg
      obtain ⟨-, hst⟩ := Prod.mk.injEq .. ▸ hg
      rw [← hst]
    | some c =>
      cases hca : isalpha c with
      | true =>
        rw [gettok_of_skip_alpha inp inp₀ lc c i n hsk hca] at hg
        exact absurd (congrArg Prod.fst hg) (keywordTok_ne_eof _)
      | false =>
        cases hcn : isnumchar c with
        | true =>
          rw [gettok_of_skip_num inp inp₀ lc c i n hsk hcn] at hg
          exact absurd (congrArg Prod.fst hg) (by simp)
        | false =>
          by_cases hch : c = '#'
          · subst hch
            rcases hcm : commentLoop inp₀ with ⟨oc', inp'⟩
            cases oc' with
            | some c' =>
              have hlt : inp'.length < inp₀.length := commentLoop_some_lt inp₀ c' inp' hcm
              rw [gettok_of_skip_comment_some inp inp₀ inp' lc c' i n hsk hcm] at hg
              exact ih inp'.length (by omega) inp' (le_refl _) (some c') i n st' hg
            | none =>
              rw [gettok_of_skip_comment_none inp inp₀ inp' lc i n hsk hcm] at hg
              obtain ⟨-, hst⟩ := Prod.mk.injEq .. ▸ hg
              rw [← hst]
          · rw [gettok_of_skip_raw inp inp₀ lc c i n hsk hca hcn hch] at hg
            exact absurd (congrArg Prod.fst hg) (by simp)

theorem keywordTok_of_not_mem (s : String)
    (h : s ∉ (["def", "extern", "if", "then", "else", "for", "in", "unary",
      "binary", "var"] : List String)) : keywordTok s = .tok_identifier := by
  have h1 : ¬ s = "def" := fun e => h (by simp [e])
  have h2 : ¬ s = "extern" := fun e => h (by simp [e])
  have h3 : ¬ s = "if" := fun e => h (by simp [e])
  have h4 : ¬ s = "then" := fun e => h (by simp [e])
  have h5 : ¬ s = "else" := fun e => h (by simp [e])
  have h6 : ¬ s = "for" := fun e => h (by simp [e])
  have h7 : ¬ s = "in" := fun e => h (by simp [e])
  have h8 : ¬ s = "unary" := fun e => h (by simp [e])
  have h9 : ¬ s = "binary" := fun e => h (by simp [e])
  have h10 : ¬ s = "var" := fun e => h (by simp [e])
  unfold keywordTok
  rw [if_neg h1, if_neg h2, if_neg h3, if_neg h4, if_neg h5, if_neg h6,
      if_neg h7, if_neg h8, if_neg h9, if_neg h10]

/-- The data of `AST::PrototypeAST` (`src/AST.h`): name, ordered parameter
names, the user-defined-operator flag, and the operator precedence. -/
structure PrototypeAST where
  name_ : String
  args_ : List String
  is_operator_ : Bool
  precedence_ : Nat

/-- Modelled from the spec: the body of `PrototypeAST::isUnary` is in an
`AST.cpp` that is not under src/ (the header only declares it).  Per the
spec, "arity 1 = unary" with the operator flag set. -/
def PrototypeAST.isUnary (p : PrototypeAST) : Bool :=
  p.is_operator_ && p.args_.length == 1

/-- Modelled from the spec: the body of `PrototypeAST::isBinary` is in an
`AST.cpp` that is not under src/ (the header only declares it).  Per the
spec, "arity ... 2 = binary" with the operator flag set. -/
def PrototypeAST.isBinary (p : PrototypeAST) : Bool :=
  p.is_operator_ && p.args_.length == 2

/-- Modelled from the spec: the body of `PrototypeAST::getBinaryPrecedence`
is in an `AST.cpp` that is not under src/ (the header only declares it).
Per the spec, the prototype "reports binary precedence 10 to any consumer
querying it", i.e. the accessor returns the stored precedence member. -/
def PrototypeAST.getBinaryPrecedence (p : PrototypeAST) : Nat := p.precedence_

/-- The process-wide scanning state shared by every `Lexer` instance: the
characters `getchar()` has not yet delivered from `stdin`, and the
function-local `static int LastChar` of `Lexer::gettok`. -/
structure SharedScan where
  stdinChars : List Char
  lastChar : Option Char

/-- The per-instance members of a `Lexer` object (`identifierStr_` and
`numVal_`). -/
structure LexerObj where
  identifierStr_ : String
  numVal_ : ℚ

/-- Embedding of `Lexer::Lexer()`: the constructor body is empty, so constructing a new
`Lexer` yields a fresh object and leaves the shared scanning state (the
static `LastChar` and the pending `stdin` characters) untouched.  The
initial member values of the fresh object are left parametric. -/
def Lexer.construct (s : SharedScan) (o : LexerObj) : LexerObj × SharedScan := (o, s)

/-- A call `l.gettok()` on the instance `o` under the shared scanning state
`s`: it runs `gettok` on the combined state and splits the result back into
the instance members and the shared part. -/
def gettokOn (o : LexerObj) (s : SharedScan) : Tok × LexerObj × SharedScan :=
  (( gettok ⟨s.stdinChars, s.lastChar, o.identifierStr_, o.numVal_⟩).1,
   ⟨(gettok ⟨s.stdinChars, s.lastChar, o.identifierStr_, o.numVal_⟩).2.identifierStr_,
    (gettok ⟨s.stdinChars, s.lastChar, o.identifierStr_, o.numVal_⟩).2.numVal_⟩,
   ⟨(gettok ⟨s.stdinChars, s.lastChar, o.identifierStr_, o.numVal_⟩).2.input,
    (gettok ⟨s.stdinChars, s.lastChar, o.identifierStr_, o.numVal_⟩).2.lastChar⟩)

/-- C1: For every input whose next token text is one of the ten keywords
{def, extern, if, then, else, for, in, unary, binary, var}, matched
case-sensitively as a maximal alphanumeric word (followed by a non-identifier
character), `gettok` returns the matching keyword kind and never the generic
identifier kind. -/
theorem claim_c1_keywords (kw : String) (t : Tok)
    (hkw : (kw, t) ∈ [("def", Tok.tok_def), ("extern", Tok.tok_extern_kw),
      ("if", Tok.tok_if), ("then", Tok.tok_then), ("else", Tok.tok_else),
      ("for", Tok.tok_for), ("in", Tok.tok_in), ("unary", Tok.tok_unary),
      ("binary", Tok.tok_binary), ("var", Tok.tok_var)])
    (c : Char) (hc : isalnum c = false) (rest : List Char) (i : String) (n : ℚ) :
    (gettok ⟨kw.data ++ c :: rest, some ' ', i, n⟩).1 = t ∧ t ≠ Tok.tok_identifier := by
  have ht : ∀ d, (c :: rest).head? = some d → isalnum d = false := by
    intro d hd
    injection hd with hd
    rw [← hd]
    exact hc
  simp only [List.mem_cons, List.mem_singleton, Prod.mk.injEq, List.not_mem_nil,
    or_false] at hkw
  rcases hkw with hp | hp | hp | hp | hp | hp | hp | hp | hp | hp <;>
    obtain ⟨rfl, rfl⟩ := hp
  · refine ⟨?_, by decide⟩
    rw [show ("def".data ++ c :: rest) = 'd' :: (['e', 'f'] ++ c :: rest) from rfl,
      gettok_ident_branch 'd' (by decide) ['e', 'f'] (c :: rest) (by decide) ht i n]
    rfl
  · refine ⟨?_, by decide⟩
    rw [show ("extern".data ++ c :: rest) = 'e' :: (['x', 't', 'e', 'r', 'n'] ++ c :: rest) from rfl,
      gettok_ident_branch 'e' (by decide) ['x', 't', 'e', 'r', 'n'] (c :: rest) (by decide) ht i n]
    rfl
  · refine ⟨?_, by decide⟩
    rw [show ("if".data ++ c :: rest) = 'i' :: (['f'] ++ c :: rest) from rfl,
      gettok_ident_branch 'i' (by decide) ['f'] (c :: rest) (by decide) ht i n]
    rfl
  · refine ⟨?_, by decide⟩
    rw [show ("then".data ++ c :: rest) = 't' :: (['h', 'e', 'n'] ++ c :: rest) from rfl,
      gettok_ident_branch 't' (by decide) ['h', 'e', 'n'] (c :: rest) (by decide) ht i n]
    rfl
  · refine ⟨?_, by decide⟩
    rw [show ("else".data ++ c :: rest) = 'e' :: (['l', 's', 'e'] ++ c :: rest) from rfl,
      gettok_ident_branch 'e' (by decide) ['l', 's', 'e'] (c :: rest) (by decide) ht i n]
    rfl
  · refine ⟨?_, by decide⟩
    rw [show ("for".data ++ c :: rest) = 'f' :: (['o', 'r'] ++ c :: rest) from rfl,
      gettok_ident_branch 'f' (by decide) ['o', 'r'] (c :: rest) (by decide) ht i n]
    rfl
  · refine ⟨?_, by decide⟩
    rw [show ("in".data ++ c :: rest) = 'i' :: (['n'] ++ c :: rest) from rfl,
      gettok_ident_branch 'i' (by decide) ['n'] (c :: rest) (by decide) ht i n]
    rfl
  · refine ⟨?_, by decide⟩
    rw [show ("unary".data ++ c :: rest) = 'u' :: (['n', 'a', 'r', 'y'] ++ c :: rest) from rfl,
      gettok_ident_branch 'u' (by decide) ['n', 'a', 'r', 'y'] (c :: rest) (by decide) ht i n]
    rfl
  · refine ⟨?_, by decide⟩
    rw [show ("binary".data ++ c :: rest) = 'b' :: (['i', 'n', 'a', 'r', 'y'] ++ c :: rest) from rfl,
      gettok_ident_branch 'b' (by decide) ['i', 'n', 'a', 'r', 'y'] (c :: rest) (by decide) ht i n]
    rfl
  · refine ⟨?_, by decide⟩
    rw [show ("var".data ++ c :: rest) = 'v' :: (['a', 'r'] ++ c :: rest) from rfl,
      gettok_ident_branch 'v' (by decide) ['a', 'r'] (c :: rest) (by decide) ht i n]
    rfl

theorem claim_c1_keywords_witness :
    (gettok ⟨"def".data ++ '(' :: [], some ' ', "", 0⟩).1 = Tok.tok_def ∧
      Tok.tok_def ≠ Tok.tok_identifier :=
  claim_c1_keywords "def" Tok.tok_def (by decide) '(' (by decide) [] "" 0

/-- C2: For every input whose next token text matches `[0-9.]+` (starting
with a digit or decimal point, consumed greedily up to the first character
outside the class, or end of input), `gettok` returns `tok_number`, and the
payload read by `getNum` equals the (exact, locale-independent) `strtod`
parse of that text; malformed multi-dot input is parsed best-effort and never
rejected. -/
theorem claim_c2_number (w : List Char) (hne : w ≠ [])
    (hw : ∀ d ∈ w, isnumchar d = true) (t : List Char)
    (ht : ∀ d, t.head? = some d → isnumchar d = false) (i : String) (n : ℚ) :
    (gettok ⟨w ++ t, some ' ', i, n⟩).1 = Tok.tok_number ∧
    getNum (gettok ⟨w ++ t, some ' ', i, n⟩).2 = strtod ⟨w⟩ := by
  obtain ⟨c0, w', rfl⟩ := List.exists_cons_of_ne_nil hne
  have h := gettok_num_branch c0 (hw c0 (by simp)) w' t
    (fun d hd => hw d (by simp [hd])) ht i n
  rw [List.cons_append, h]
  exact ⟨rfl, rfl⟩

theorem claim_c2_number_witness :
    ((['1', '.', '2', '.', '3'] : List Char) ≠ [] ∧
      (gettok ⟨['1', '.', '2', '.', '3'] ++ [' '], some ' ', "", 0⟩).1 = Tok.tok_number ∧
      getNum (gettok ⟨['1', '.', '2', '.', '3'] ++ [' '], some ' ', "", 0⟩).2 =
        strtod "1.2.3") ∧
    strtod "1.2.3" = 6 / 5 := by
  refine ⟨⟨by decide, claim_c2_number ['1', '.', '2', '.', '3'] (by decide) (by decide)
    [' '] (by decide) "" 0⟩, ?_⟩
  simp [strtod, parseIntPart, fracVal, isdigit]
  norm_num

/-- C3: For every maximal alphanumeric word that starts with an alphabetic
character and lies outside the fixed keyword set, `gettok` returns the
generic identifier kind and `getId` returns exactly the matched text. -/
theorem claim_c3_identifier (c0 : Char) (hc0 : isalpha c0 = true) (w : List Char)
    (hw : ∀ d ∈ w, isalnum d = true)
    (hkw : (⟨c0 :: w⟩ : String) ∉ (["def", "extern", "if", "then", "else", "for",
      "in", "unary", "binary", "var"] : List String))
    (t : List Char) (ht : ∀ d, t.head? = some d → isalnum d = false)
    (i : String) (n : ℚ) :
    (gettok ⟨c0 :: (w ++ t), some ' ', i, n⟩).1 = Tok.tok_identifier ∧
    getId (gettok ⟨c0 :: (w ++ t), some ' ', i, n⟩).2 = ⟨c0 :: w⟩ := by
  rw [gettok_ident_branch c0 hc0 w t hw ht i n]
  exact ⟨keywordTok_of_not_mem _ hkw, rfl⟩

theorem claim_c3_identifier_witness :
    (gettok ⟨'d' :: (['e', 'f', 'x'] ++ [' ']), some ' ', "", 0⟩).1 = Tok.tok_identifier ∧
    getId (gettok ⟨'d' :: (['e', 'f', 'x'] ++ [' ']), some ' ', "", 0⟩).2 = "defx" :=
  claim_c3_identifier 'd' (by decide) ['e', 'f', 'x'] (by decide) (by decide)
    [' '] (by decide) "" 0

/-- C5: `gettok` never fails — it is a total function producing a token for
every state — and a pending character that is not whitespace, not alphabetic,
not in `[0-9.]`, and not `#` is returned as a single-character token whose
kind is the character ordinal, with the lexer advancing past it. -/
theorem claim_c5_rawchar (c : Char) (hs : isspace c = false) (ha : isalpha c = false)
    (hn : isnumchar c = false) (hh : ¬ (c = '#')) (t : List Char) (i : String) (n : ℚ) :
    gettok ⟨t, some c, i, n⟩ = (Tok.tok_char c.toNat, ⟨t.tail, t.head?, i, n⟩) :=
  gettok_rawchar c hs ha hn hh t i n

theorem claim_c5_rawchar_witness :
    gettok ⟨['1'], some '+', "", 0⟩ =
      (Tok.tok_char '+'.toNat, ⟨['1'].tail, ['1'].head?, "", 0⟩) :=
  claim_c5_rawchar '+' (by decide) (by decide) (by decide) (by decide) ['1'] "" 0

/-- C4: a `#` comment is discarded through end-of-line and never yields a
token: on the input `"1 # c\n2"` the successive `gettok` results are
number 1, number 2, and `tok_eof`; and when end-of-input is reached while
discarding a comment, `gettok` returns `tok_eof` instead of a token for the
comment. -/
theorem claim_c4_comment :
    (gettok (initState "1 # c\n2" "" 0)).1 = Tok.tok_number ∧
    getNum (gettok (initState "1 # c\n2" "" 0)).2 = 1 ∧
    (gettok (gettok (initState "1 # c\n2" "" 0)).2).1 = Tok.tok_number ∧
    getNum (gettok (gettok (initState "1 # c\n2" "" 0)).2).2 = 2 ∧
    (gettok (gettok (gettok (initState "1 # c\n2" "" 0)).2).2).1 = Tok.tok_eof ∧
    (gettok (initState "# comment hits end of input" "" 0)).1 = Tok.tok_eof := by
  have h1 : gettok (initState "1 # c\n2" "" 0) =
      (.tok_number, ⟨['#', ' ', 'c', '\n', '2'], some ' ', "", 1⟩) := by
    simp [gettok, initState, skipWS, readNumLoop, isspace, isnumchar, isdigit,
      isalpha, strtod, parseIntPart, fracVal]
  have h2 : gettok ⟨['#', ' ', 'c', '\n', '2'], some ' ', "", 1⟩ =
      (.tok_number, ⟨[], none, "", 2⟩) := by
    simp [gettok, skipWS, commentLoop, readNumLoop, isspace, isnumchar, isdigit,
      isalpha, strtod, parseIntPart, fracVal]
  have h3 : gettok ⟨([] : List Char), none, "", 2⟩ = (.tok_eof, ⟨[], none, "", 2⟩) :=
    gettok_eof_pending [] "" 2
  have h4 : (gettok (initState "# comment hits end of input" "" 0)).1 = Tok.tok_eof := by
    simp [gettok, initState, skipWS, commentLoop, isspace, isnumchar, isdigit, isalpha]
  exact ⟨by rw [h1], by rw [h1]; rfl, by rw [h1, h2], by rw [h1, h2]; rfl,
    by rw [h1, h2, h3], h4⟩

/-- C6: when the input is exhausted (`LastChar` holds `EOF`) `gettok` returns
`tok_eof` without consuming further input — the state is returned unchanged —
and whenever a call returns `tok_eof`, every subsequent call on the resulting
state also returns `tok_eof`. -/
theorem claim_c6_eof :
    (∀ (inp : List Char) (i : String) (n : ℚ),
      gettok ⟨inp, none, i, n⟩ = (.tok_eof, ⟨inp, none, i, n⟩)) ∧
    (∀ (st st' : LexState), gettok st = (.tok_eof, st') →
      gettok st' = (.tok_eof, st')) := by
  refine ⟨gettok_eof_pending, ?_⟩
  intro st st' h
  obtain ⟨inp, lc, i, n⟩ := st
  have hlc : st'.lastChar = none :=
    gettok_eof_lastChar_aux inp.length inp (le_refl _) lc i n st' h
  have h2 := gettok_eof_pending st'.input st'.identifierStr_ st'.numVal_
  rw [← hlc] at h2
  exact h2

theorem claim_c6_eof_witness :
    gettok (⟨[], none, "x", 5⟩ : LexState) = (.tok_eof, ⟨[], none, "x", 5⟩) :=
  claim_c6_eof.2 ⟨[], none, "x", 5⟩ ⟨[], none, "x", 5⟩ (claim_c6_eof.1 [] "x" 5)

/-- C7: `gettok` terminates on every finite input: each comment line consumed
strictly decreases the unread input and whitespace skipping never grows it —
the well-founded measure under which `gettok` is defined — and consequently
`gettok` is a total function: every call returns a token. -/
theorem claim_c7_termination :
    (∀ (inp inp' : List Char) (c : Char),
      commentLoop inp = (some c, inp') → inp'.length < inp.length) ∧
    (∀ (lc : Option Char) (inp : List Char), (skipWS lc inp).2.length ≤ inp.length) ∧
    (∀ st : LexState, ∃ t st', gettok st = (t, st')) :=
  ⟨fun inp inp' c h => commentLoop_some_lt inp c inp' h,
   skipWS_length_le,
   fun st => ⟨(gettok st).1, (gettok st).2, rfl⟩⟩

theorem claim_c7_termination_witness :
    ([] : List Char).length < ['c', '\n'].length :=
  claim_c7_termination.1 ['c', '\n'] [] '\n' (by decide)

/-- C8: the payload accessors `getNum`/`getId` are meaningful exactly for the
call that just produced the corresponding kind: the returned kind never
depends on the members' pre-call values, and when a call returns the number
(resp. identifier) kind, the value `getNum` (resp. `getId`) then reads is the
freshly decoded payload, independent of — i.e. overwriting — whatever the
members held before the call. -/
theorem claim_c8_payload (inp : List Char) (lc : Option Char) (i₁ i₂ : String)
    (n₁ n₂ : ℚ) :
    (gettok ⟨inp, lc, i₁, n₁⟩).1 = (gettok ⟨inp, lc, i₂, n₂⟩).1 ∧
    ((gettok ⟨inp, lc, i₁, n₁⟩).1 = Tok.tok_number →
      getNum (gettok ⟨inp, lc, i₁, n₁⟩).2 = getNum (gettok ⟨inp, lc, i₂, n₂⟩).2) ∧
    ((gettok ⟨inp, lc, i₁, n₁⟩).1 = Tok.tok_identifier →
      getId (gettok ⟨inp, lc, i₁, n₁⟩).2 = getId (gettok ⟨inp, lc, i₂, n₂⟩).2) := by
  obtain ⟨h1, h2, h3, h4, h5⟩ :=
    gettok_payload_indep_aux inp.length inp (le_refl _) lc i₁ i₂ n₁ n₂
  exact ⟨h1, h4, h5⟩

theorem claim_c8_payload_witness :
    getNum (gettok ⟨['7'], some ' ', "a", 3⟩).2 =
      getNum (gettok ⟨['7'], some ' ', "b", 4⟩).2 :=
  (claim_c8_payload ['7'] (some ' ') "a" "b" 3 4).2.1 (by
    simp [gettok, skipWS, readNumLoop, isspace, isnumchar, isdigit, isalpha])

/-- C9: for every `PrototypeAST`, `isUnary` holds exactly when the operator
flag is set and the parameter count is 1, `isBinary` exactly when the flag is
set and the count is 2, and the prototype built for `binary^ 10 (a b)` — a
binary operator with precedence 10 — reports binary precedence 10. -/
theorem claim_c9_prototype :
    (∀ p : PrototypeAST,
      (p.isUnary = true ↔ p.is_operator_ = true ∧ p.args_.length = 1) ∧
      (p.isBinary = true ↔ p.is_operator_ = true ∧ p.args_.length = 2)) ∧
    (PrototypeAST.mk "binary^" ["a", "b"] true 10).isBinary = true ∧
    (PrototypeAST.mk "binary^" ["a", "b"] true 10).getBinaryPrecedence = 10 := by
  refine ⟨fun p => ⟨?_, ?_⟩, rfl, rfl⟩
  · simp [PrototypeAST.isUnary]
  · simp [PrototypeAST.isBinary]

/-- C10: the pending character is a single process-wide value (a
function-local static) shared by every `Lexer` instance: constructing a fresh
`Lexer` does not reset the shared scanning state, the scan's progression is
independent of which instance calls `gettok`, and interleaving calls on two
instances reads one shared stream — on `"ab cd"`, the first instance's call
returns identifier `"ab"` and a freshly constructed second instance's call
continues with identifier `"cd"` rather than starting over. -/
theorem claim_c10_static :
    (∀ (s : SharedScan) (o : LexerObj), (Lexer.construct s o).2 = s) ∧
    (∀ (s : SharedScan) (o₁ o₂ : LexerObj),
      (gettokOn o₁ s).1 = (gettokOn o₂ s).1 ∧
      (gettokOn o₁ s).2.2.stdinChars = (gettokOn o₂ s).2.2.stdinChars ∧
      (gettokOn o₁ s).2.2.lastChar = (gettokOn o₂ s).2.2.lastChar) ∧
    ((gettokOn ⟨"", 0⟩ ⟨"ab cd".data, some ' '⟩).1 = Tok.tok_identifier ∧
      (gettokOn ⟨"", 0⟩ ⟨"ab cd".data, some ' '⟩).2.1.identifierStr_ = "ab") ∧
    ((gettokOn (Lexer.construct (gettokOn ⟨"", 0⟩ ⟨"ab cd".data, some ' '⟩).2.2 ⟨"", 0⟩).1
        (Lexer.construct (gettokOn ⟨"", 0⟩ ⟨"ab cd".data, some ' '⟩).2.2 ⟨"", 0⟩).2).1 =
      Tok.tok_identifier ∧
      (gettokOn (Lexer.construct (gettokOn ⟨"", 0⟩ ⟨"ab cd".data, some ' '⟩).2.2 ⟨"", 0⟩).1
        (Lexer.construct (gettokOn ⟨"", 0⟩ ⟨"ab cd".data, some ' '⟩).2.2 ⟨"", 0⟩).2).2.1.identifierStr_ =
      "cd") := by
  have e1 : gettok ⟨"ab cd".data, some ' ', "", 0⟩ =
      (Tok.tok_identifier, ⟨['c', 'd'], some ' ', "ab", 0⟩) := by
    rw [show ("ab cd".data) = 'a' :: (['b'] ++ (' ' :: ['c', 'd'])) from rfl,
      gettok_ident_branch 'a' (by decide) ['b'] (' ' :: ['c', 'd']) (by decide)
        (by intro d hd; injection hd with hd; rw [← hd]; decide) "" 0]
    rfl
  have e2 : gettok ⟨['c', 'd'], some ' ', "", 0⟩ =
      (Tok.tok_identifier, ⟨[], none, "cd", 0⟩) := by
    rw [show (['c', 'd'] : List Char) = 'c' :: (['d'] ++ ([] : List Char)) from rfl,
      gettok_ident_branch 'c' (by decide) ['d'] ([] : List Char) (by decide)
        (by intro d hd; exact absurd hd (by simp)) "" 0]
    rfl
  refine ⟨fun s o => rfl, fun s o₁ o₂ => ?_, ?_, ?_⟩
  · obtain ⟨h1, h2, h3, -, -⟩ :=
      gettok_payload_indep_aux s.stdinChars.length s.stdinChars (le_refl _)
        s.lastChar o₁.identifierStr_ o₂.identifierStr_ o₁.numVal_ o₂.numVal_
    exact ⟨h1, h2, h3⟩
  · constructor
    · show (gettok ⟨"ab cd".data, some ' ', "", 0⟩).1 = Tok.tok_identifier
      rw [e1]
    · show (gettok ⟨"ab cd".data, some ' ', "", 0⟩).2.identifierStr_ = "ab"
      rw [e1]
  · constructor
    · show (gettokOn ⟨"", 0⟩
          ⟨(gettok ⟨"ab cd".data, some ' ', "", 0⟩).2.input,
           (gettok ⟨"ab cd".data, some ' ', "", 0⟩).2.lastChar⟩).1 = Tok.tok_identifier
      rw [e1]
      show (gettok ⟨['c', 'd'], some ' ', "", 0⟩).1 = Tok.tok_identifier
      rw [e2]
    · show (gettokOn ⟨"", 0⟩
          ⟨(gettok ⟨"ab cd".data, some ' ', "", 0⟩).2.input,
           (gettok ⟨"ab cd".data, some ' ', "", 0⟩).2.lastChar⟩).2.1.identifierStr_ = "cd"
      rw [e1]
      show (gettok ⟨['c', 'd'], some ' ', "", 0⟩).2.identifierStr_ = "cd"
      rw [e2]

end HackLLVM
